import Mathlib

/-!
Shallow embedding of `src/arceos/labs/lab_allocator/src/lib.rs`
(`LabByteAllocator`), a free-list byte allocator with a size-class pool
front end, together with theorems settling the frozen claims about it.

Conventions of the embedding:
* the target is 64-bit, so `usize` values are natural numbers and every
  `usize` arithmetic operation is performed modulo `W = 2 ^ 64`
  (release-mode wrapping semantics);
* raw pointers are addresses (`Nat`); `null_mut()` is `0`;
* the free list is represented by the list of block-header addresses in
  link order, and the `size` field stored in each header is kept in a
  separate map `hdr : Nat → Nat` from header address to stored size
  (the `next` field is exactly the list structure);
* `mem::size_of::<Block>() = 16` and `mem::align_of::<Block>() = 8`
  (`Block` is `{ next: *mut Block, size: usize }`);
* the addresses of the eight static pool arrays (`POOL_32`, ...,
  `POOL_512_1024`) are an environment parameter `env : Fin 8 → Nat`,
  since the linker chooses them; `[u8; N]` statics only guarantee
  alignment 1.
-/

namespace LabAlloc

/-- Machine-word modulus of the 64-bit target: `usize` arithmetic wraps
modulo `W`. -/
def W : Nat := 2 ^ 64

/-- Wrapping 64-bit addition (`usize` addition in release mode). -/
def wadd (x y : Nat) : Nat := (x + y) % W

/-- Wrapping 64-bit subtraction (`usize` subtraction in release mode). -/
def wsub (x y : Nat) : Nat := (x + (W - y % W)) % W

/-- Bitwise complement on 64 bits: `!x` for `x : usize`. -/
def cpl (x : Nat) : Nat := (W - 1) - x % W

/-- `mem::size_of::<Block>()` on the 64-bit target: two 8-byte fields. -/
def sizeOfBlock : Nat := 16

/-- `mem::align_of::<Block>()` on the 64-bit target. -/
def alignOfBlock : Nat := 8

/-- `LabByteAllocator::align_up`: `(size + align - 1) & !(align - 1)`,
with `usize` wrapping semantics. -/
def align_up (v a : Nat) : Nat :=
  (wadd v (wsub a 1)) &&& (cpl (wsub a 1))

/-- `POOL_SIZES`: the eight fixed size classes. -/
def POOL_SIZES : List Nat :=
  [32, 128, 512, 2048, 8 * 1024, 32 * 1024, 128 * 1024, 512 * 1024]

/-- `core::alloc::Layout`: requested size and (power-of-two) alignment. -/
structure Layout where
  size : Nat
  align : Nat
deriving DecidableEq

/-- `PoolInfo { base, size, used }`. -/
structure PoolInfo where
  base : Nat
  size : Nat
  used : Bool
deriving DecidableEq

/-- `LabByteAllocator`'s state.  `free_list` is the chain of block-header
addresses reachable from the `free_list` head pointer, `hdr` gives the
`size` field currently stored in the header at each address. -/
structure AllocState where
  start : Nat
  total_size : Nat
  used_size : Nat
  free_list : List Nat
  hdr : Nat → Nat
  pools : Fin 8 → PoolInfo
  allocation_count : Nat

/-- `LabByteAllocator::new()`.  The contents of yet-unwritten block
headers are raw memory; they are supplied as the arbitrary function
`mem0`. -/
def new (mem0 : Nat → Nat) : AllocState :=
  { start := 0, total_size := 0, used_size := 0, free_list := [],
    hdr := mem0, pools := fun _ => ⟨0, 0, false⟩, allocation_count := 0 }

/-- Write the `size` field of the block header at address `a`. -/
def writeHdr (h : Nat → Nat) (a v : Nat) : Nat → Nat :=
  fun x => if x = a then v else h x

/-- The search loop of `find_best_fit`: walk the list keeping the current
best candidate and its size (`best_size` starts at `usize::MAX = W - 1`);
a block qualifies when `block_size >= size && block_size < best_size`,
and an exact match breaks out of the loop at once. -/
def bfLoop (hdr : Nat → Nat) (size : Nat) :
    List Nat → Option Nat → Nat → Option Nat
  | [], best, _ => best
  | c :: rest, best, bsz =>
    if size ≤ hdr c ∧ hdr c < bsz then
      if hdr c = size then some c
      else bfLoop hdr size rest (some c) (hdr c)
    else bfLoop hdr size rest best bsz

/-- The address chosen by the `find_best_fit` search on a given list. -/
def bestFitAddr (hdr : Nat → Nat) (size : Nat) (l : List Nat) : Option Nat :=
  bfLoop hdr size l none (W - 1)

/-- Unlinking `*prev = (*block).next` removes the chosen node, i.e. the
first occurrence of its address, from the list. -/
def removeFirst (a : Nat) : List Nat → List Nat
  | [] => []
  | x :: xs => if x = a then xs else x :: removeFirst a xs

/-- `LabByteAllocator::find_best_fit`: best-fit search over the free
list; on success the chosen block is unlinked and returned. -/
def find_best_fit (hdr : Nat → Nat) (size : Nat) (l : List Nat) :
    Option (Nat × List Nat) :=
  match bestFitAddr hdr size l with
  | some a => some (a, removeFirst a l)
  | none => none

/-- `LabByteAllocator::allocate_from_pool`: find the first size class
whose capacity covers both the requested size and alignment; if that
class's pool is unused, mark it used, record its base (the static
array's address, `env idx`) and capacity, and return the base. -/
def allocate_from_pool (env : Fin 8 → Nat) (l : Layout)
    (pools : Fin 8 → PoolInfo) : Option (Nat × (Fin 8 → PoolInfo)) :=
  match POOL_SIZES.findIdx?
      (fun sz => decide (l.size ≤ sz) && decide (l.align ≤ sz)) with
  | some i =>
    if hi : i < 8 then
      let idx : Fin 8 := ⟨i, hi⟩
      if (pools idx).used then none
      else
        let base := env idx
        some (base,
          fun j => if j = idx then ⟨base, POOL_SIZES.getD i 0, true⟩
                   else pools j)
    else none
  | none => none

/-- The byte count `alloc` hands to the free-list search:
`Self::align_up(layout.size(), layout.align())`. -/
def requiredOf (l : Layout) : Nat := align_up l.size l.align

/-- Modelled from the spec: the inner loop of the coalescing pass, with
the cursor on block `a`: each merge absorbs `a`'s list successor into
`a` (`size = a.size + header_size + b.size`) and re-examines the same
position before advancing. -/
def mergeFrom (hdr : Nat → Nat) (a : Nat) : List Nat → (Nat → Nat) × List Nat
  | [] => (hdr, [a])
  | b :: rest =>
    mergeFrom (writeHdr hdr a (wadd (wadd (hdr a) sizeOfBlock) (hdr b))) a rest

/-- Modelled from the spec: `LabByteAllocator::merge_blocks` is called by
`dealloc` and `add_memory` but its definition is absent from the sources
under `src/`.  Spec §4.3: scan the list once; each pair of list-adjacent
free blocks merges, the absorbed block is re-linked past, and the same
position is re-examined before advancing.  In this implementation every
block on the free list is free (headers carry no free flag), so every
list-adjacent pair merges. -/
def merge_blocks (hdr : Nat → Nat) : List Nat → (Nat → Nat) × List Nat
  | [] => (hdr, [])
  | a :: rest => mergeFrom hdr a rest

/-- `ByteAllocator::alloc` for `LabByteAllocator`: try the pool front
end, otherwise best-fit on the free list; `none` is `Err(NoMemory)`. -/
def alloc (env : Fin 8 → Nat) (s : AllocState) (l : Layout) :
    Option (Nat × AllocState) :=
  match allocate_from_pool env l s.pools with
  | some (ptr, pools') => some (ptr, { s with pools := pools' })
  | none =>
    match find_best_fit s.hdr (requiredOf l) s.free_list with
    | some (blk, fl') =>
      some (align_up (wadd blk sizeOfBlock) l.align,
        { s with free_list := fl',
                 used_size := wadd s.used_size (requiredOf l),
                 allocation_count := wadd s.allocation_count 1 })
    | none => none

/-- The pool-membership test of `dealloc`:
`ptr >= pool.base && ptr < pool.base.add(pool.size)` for some pool. -/
def poolHit (pools : Fin 8 → PoolInfo) (ptr : Nat) : Bool :=
  (List.finRange 8).any fun i =>
    decide ((pools i).base ≤ ptr) &&
    decide (ptr < wadd (pools i).base (pools i).size)

/-- `ByteAllocator::dealloc` for `LabByteAllocator`: a pointer inside a
recorded pool range is ignored; otherwise the header at `ptr - 16` is
pushed onto the free list, the counters are decremented, and the list is
coalesced. -/
def dealloc (s : AllocState) (ptr : Nat) (l : Layout) : AllocState :=
  if poolHit s.pools ptr then s
  else
    { s with
      hdr := (merge_blocks s.hdr (wsub ptr sizeOfBlock :: s.free_list)).1,
      free_list := (merge_blocks s.hdr (wsub ptr sizeOfBlock :: s.free_list)).2,
      used_size := wsub s.used_size l.size,
      allocation_count := wsub s.allocation_count 1 }

/-- `AllocError` of the `allocator` crate (only `NoMemory` is used). -/
inductive AllocError where
  | NoMemory
deriving DecidableEq

/-- `BaseAllocator::add_memory` for `LabByteAllocator`: align the start,
write a whole-region block header, push it, grow `total_size`, coalesce;
the function always returns `Ok(())`. -/
def add_memory (s : AllocState) (start size : Nat) :
    Except AllocError AllocState :=
  let aligned_start := align_up start alignOfBlock
  let aligned_size := wsub size (wsub aligned_start start)
  let hdr1 := writeHdr s.hdr aligned_start (wsub aligned_size sizeOfBlock)
  let m := merge_blocks hdr1 (aligned_start :: s.free_list)
  Except.ok { s with hdr := m.1, free_list := m.2,
                     total_size := wadd s.total_size aligned_size }

/-- `BaseAllocator::init` for `LabByteAllocator`: align the start, set
`total_size`, and make the region one free block heading the list. -/
def init (s : AllocState) (start size : Nat) : AllocState :=
  let aligned_start := align_up start alignOfBlock
  let aligned_size := wsub size (wsub aligned_start start)
  { s with start := aligned_start,
           total_size := aligned_size,
           hdr := writeHdr s.hdr aligned_start (wsub aligned_size sizeOfBlock),
           free_list := [aligned_start] }

/-- `ByteAllocator::total_bytes`. -/
def total_bytes (s : AllocState) : Nat := s.total_size

/-- `ByteAllocator::used_bytes`. -/
def used_bytes (s : AllocState) : Nat := s.used_size

/-- `ByteAllocator::available_bytes`: `total_size - used_size` on
`usize`. -/
def available_bytes (s : AllocState) : Nat := wsub s.total_size s.used_size

/-- One externally visible operation on the allocator. -/
inductive Op where
  | alloc (l : Layout)
  | dealloc (ptr : Nat) (l : Layout)
  | addMemory (start size : Nat)

/-- Apply one operation to the state (a failing `alloc` and the
`Err` branch of `add_memory` leave the state unchanged, as in the
source). -/
def step (env : Fin 8 → Nat) (s : AllocState) : Op → AllocState
  | .alloc l =>
    match alloc env s l with
    | some (_, s') => s'
    | none => s
  | .dealloc ptr l => dealloc s ptr l
  | .addMemory a n =>
    match add_memory s a n with
    | .ok s' => s'
    | .error _ => s

/-- Run a sequence of operations. -/
def run (env : Fin 8 → Nat) (s : AllocState) (ops : List Op) : AllocState :=
  ops.foldl (step env) s

/-- States reachable from `init` by alloc / dealloc / add_memory calls. -/
def ReachableState (env : Fin 8 → Nat) (s : AllocState) : Prop :=
  ∃ mem0 start size ops, s = run env (init (new mem0) start size) ops

/-- Modelled from the spec (§4.3 step 1), for comparison with
`requiredOf`: required is the requested size plus one header's worth of
bytes plus the alignment padding, derived from the header size, needed so
the payload pointer satisfies the requested alignment. -/
def specRequired (l : Layout) : Nat :=
  l.size + sizeOfBlock + (align_up sizeOfBlock l.align - sizeOfBlock)

/-- All-zero initial raw memory, used for concrete executions. -/
def mem0Z : Nat → Nat := fun _ => 0

/-- A concrete placement of the eight static pool arrays, far above the
heap addresses used in the concrete executions. -/
def envW : Fin 8 → Nat := fun i => 2 ^ 32 + i.val * 2 ^ 20

/-- A concrete placement of the pool arrays at odd addresses (a `[u8; N]`
static only guarantees alignment 1). -/
def envOdd : Fin 8 → Nat := fun i => 2 * i.val + 1

/-- A concrete size map: blocks at addresses 1, 2, 3 of payload sizes
100, 10 and 50 (the spec's best-fit example). -/
def hdrX : Nat → Nat :=
  fun n => if n = 1 then 100 else if n = 2 then 10 else if n = 3 then 50 else 0

/-- Eight allocations, one per size class, that mark every pool used. -/
def opsPool : List Op :=
  [Op.alloc ⟨32, 1⟩, Op.alloc ⟨128, 1⟩, Op.alloc ⟨512, 1⟩, Op.alloc ⟨2048, 1⟩,
   Op.alloc ⟨8 * 1024, 1⟩, Op.alloc ⟨32 * 1024, 1⟩, Op.alloc ⟨128 * 1024, 1⟩,
   Op.alloc ⟨512 * 1024, 1⟩]

/-- One matching alloc/dealloc round trip on the free-list engine:
`alloc(1, 8)` consumes `align_up(1, 8) = 8` bytes of `used_size`, the
dealloc gives back only `layout.size() = 1`. -/
def opsCycle : List Op := [Op.alloc ⟨1, 8⟩, Op.dealloc 24 ⟨1, 8⟩]

/-- Mark all pools used, then run five pumping round trips. -/
def opsC3 : List Op := opsPool ++ opsCycle ++ opsCycle ++ opsCycle ++ opsCycle ++ opsCycle

/-- The state reached from `init(8, 32)` by `opsC3`: its `used_size` is
35 while `total_size` is 32. -/
def stateC3 : AllocState := run envW (init (new mem0Z) 8 32) opsC3

/-- A freshly initialised allocator over the region `[8, 8 + 2^20 + 64)`. -/
def sA : AllocState := init (new mem0Z) 8 (2 ^ 20 + 64)

/-- A layout whose alignment does not divide its size (and too large for
any pool class). -/
def lB : Layout := ⟨2 ^ 20 + 2, 4⟩

/-- `sA` after `alloc(lB)` (served by the free list, returning 24). -/
def sB1 : AllocState := step envW sA (Op.alloc lB)

/-- A pool-free layout whose alignment 1 divides its size. -/
def lH : Layout := ⟨2 ^ 20, 1⟩

/-- `sA` after `alloc(lH)` (served by the free list, returning 24). -/
def sH1 : AllocState := step envW sA (Op.alloc lH)

/-- `sA` after the round trip `alloc(lH)`; `dealloc(24, lH)`: the block
at 8 is back on the free list. -/
def sD2 : AllocState := step envW sH1 (Op.dealloc 24 lH)

/-- `sD2` after a second `dealloc(24, lH)` of the same pointer. -/
def sD3 : AllocState := step envW sD2 (Op.dealloc 24 lH)

/-- A freshly initialised allocator over `[8, 8 + 2^21)`: one free block
of payload size `2^21 - 16`. -/
def sF : AllocState := init (new mem0Z) 8 (2 ^ 21)

/-- A pool-free request leaving a surplus larger than one header. -/
def lF : Layout := ⟨2 ^ 20, 1⟩

/-- `sF` after `alloc(lF)`. -/
def sF1 : AllocState := step envW sF (Op.alloc lF)

/-- A state whose first pool is recorded as used with range [100, 132). -/
def sW : AllocState :=
  { start := 0, total_size := 0, used_size := 0, free_list := [],
    hdr := mem0Z,
    pools := fun i => if i.val = 0 then ⟨100, 32, true⟩ else ⟨0, 0, false⟩,
    allocation_count := 0 }

/-! ### Arithmetic helper lemmas -/

theorem W_pos : 0 < W := by unfold W; positivity

theorem wadd_lt (x y : Nat) : wadd x y < W := Nat.mod_lt _ W_pos

theorem wsub_lt (x y : Nat) : wsub x y < W := Nat.mod_lt _ W_pos

theorem wsub_wadd_cancel (x y : Nat) (hx : x < W) (hy : y < W) :
    wsub (wadd x y) y = x := by
  unfold wadd wsub
  rw [Nat.mod_eq_of_lt hy, Nat.mod_add_mod]
  have h1 : x + y + (W - y) = x + W := by omega
  rw [h1, Nat.add_mod_right, Nat.mod_eq_of_lt hx]

theorem wsub_eq_sub (x y : Nat) (h1 : y ≤ x) (h2 : x < W) :
    wsub x y = x - y := by
  unfold wsub
  rw [Nat.mod_eq_of_lt (Nat.lt_of_le_of_lt h1 h2)]
  have h3 : x + (W - y) = (x - y) + W := by omega
  rw [h3, Nat.add_mod_right, Nat.mod_eq_of_lt (by omega)]

/-! ### Structure of `merge_blocks` and `allocate_from_pool` -/

/-- The inner coalescing loop never moves past its cursor block. -/
theorem mergeFrom_snd (t : List Nat) :
    ∀ hdr a, (mergeFrom hdr a t).2 = [a] := by
  induction t with
  | nil => intro hdr a; rfl
  | cons b rest ih => intro hdr a; rw [mergeFrom]; exact ih _ a

/-- Since every block on the free list counts as free, the spec-modelled
coalescing pass collapses a non-empty list to its head block. -/
theorem merge_blocks_snd (hdr : Nat → Nat) (a : Nat) (t : List Nat) :
    (merge_blocks hdr (a :: t)).2 = [a] :=
  mergeFrom_snd t hdr a

/-- Shape of a successful pool allocation: some class index is picked,
its pool was unused, the returned pointer is that pool's static base,
and only that pool's entry changes. -/
theorem allocate_from_pool_spec (env : Fin 8 → Nat) (l : Layout)
    (pools : Fin 8 → PoolInfo) (p : Nat) (ps' : Fin 8 → PoolInfo)
    (h : allocate_from_pool env l pools = some (p, ps')) :
    ∃ i : Fin 8, p = env i ∧ (pools i).used = false ∧
      ps' = fun j => if j = i then ⟨env i, POOL_SIZES.getD i.val 0, true⟩
                     else pools j := by
  unfold allocate_from_pool at h
  cases hfi : POOL_SIZES.findIdx?
      (fun sz => decide (l.size ≤ sz) && decide (l.align ≤ sz)) with
  | none => rw [hfi] at h; exact absurd h (by simp)
  | some i =>
    rw [hfi] at h
    simp only [] at h
    by_cases hi : i < 8
    · rw [dif_pos hi] at h
      by_cases hu : (pools ⟨i, hi⟩).used = true
      · rw [if_pos hu] at h; exact absurd h (by simp)
      · rw [if_neg hu] at h
        rw [Option.some.injEq, Prod.mk.injEq] at h
        obtain ⟨hp, hps⟩ := h
        refine ⟨⟨i, hi⟩, hp.symm, ?_, hps.symm⟩
        revert hu; cases (pools ⟨i, hi⟩).used <;> simp
    · rw [dif_neg hi] at h; exact absurd h (by simp)

/-! ### C8: `add_memory` on an undersized region -/

/-- C8 counterexample: `add_memory(8, 4)` gives an aligned region of 4
bytes, which cannot hold the 16-byte header; the claim says this returns
a recoverable NoMemory error, but the call returns `Ok(())` and stores
the wrapped-around size `2^64 - 12` in the new block's header. -/
theorem add_memory_undersized_cex :
    wsub 4 (wsub (align_up 8 alignOfBlock) 8) < sizeOfBlock ∧
    (add_memory (new mem0Z) 8 4).isOk = true ∧
    (add_memory (new mem0Z) 8 4).toOption.map (fun s => s.hdr 8) =
      some (2 ^ 64 - 12) := by
  refine ⟨by decide, rfl, by decide⟩

/-- C8 amended: `add_memory` performs no size check at all; it returns
`Ok(())` for every state and every region, including regions that cannot
hold one block header. -/
theorem add_memory_always_ok (s : AllocState) (a n : Nat) :
    (add_memory s a n).isOk = true := rfl

/-! ### Path lemmas for `alloc` -/

/-- A successful `alloc` that misses the pools goes through the best-fit
search: the chosen block is unlinked whole, the counters grow by the
computed required size, and the pointer is the aligned payload address. -/
theorem alloc_free_path (env : Fin 8 → Nat) (s : AllocState) (l : Layout)
    (p : Nat) (s' : AllocState)
    (hpool : allocate_from_pool env l s.pools = none)
    (h : alloc env s l = some (p, s')) :
    ∃ a, bestFitAddr s.hdr (requiredOf l) s.free_list = some a ∧
      p = align_up (wadd a sizeOfBlock) l.align ∧
      s' = { s with free_list := removeFirst a s.free_list,
                    used_size := wadd s.used_size (requiredOf l),
                    allocation_count := wadd s.allocation_count 1 } := by
  unfold alloc at h
  rw [hpool] at h
  unfold find_best_fit at h
  cases hbf : bestFitAddr s.hdr (requiredOf l) s.free_list with
  | none => rw [hbf] at h; exact absurd h (by simp)
  | some a =>
    rw [hbf] at h
    rw [Option.some.injEq, Prod.mk.injEq] at h
    exact ⟨a, rfl, h.1.symm, h.2.symm⟩

/-- A used pool entry stays used across any single successful `alloc`. -/
theorem alloc_pools_mono (env : Fin 8 → Nat) (s : AllocState) (l : Layout)
    (p : Nat) (s' : AllocState) (h : alloc env s l = some (p, s'))
    (i : Fin 8) (hu : (s.pools i).used = true) : (s'.pools i).used = true := by
  cases hap : allocate_from_pool env l s.pools with
  | some pr =>
    obtain ⟨p0, ps'⟩ := pr
    unfold alloc at h
    rw [hap] at h
    rw [Option.some.injEq, Prod.mk.injEq] at h
    obtain ⟨i0, _, _, hps⟩ := allocate_from_pool_spec env l s.pools p0 ps' hap
    rw [← h.2]
    show (ps' i).used = true
    rw [hps]
    by_cases hii : i = i0
    · simp [hii]
    · simp [hii, hu]
  | none =>
    obtain ⟨a, _, _, hs⟩ := alloc_free_path env s l p s' hap h
    rw [hs]
    exact hu

/-! ### C7: pool permanence -/

/-- C7: once a pool's `used` flag is true it stays true across every
operation, and a `dealloc` whose pointer lies in a recorded pool range
returns the state unchanged (a silent no-op that never frees the slot). -/
theorem pool_one_shot :
    (∀ (env : Fin 8 → Nat) (s : AllocState) (op : Op) (i : Fin 8),
       (s.pools i).used = true → ((step env s op).pools i).used = true) ∧
    (∀ (s : AllocState) (ptr : Nat) (l : Layout),
       poolHit s.pools ptr = true → dealloc s ptr l = s) := by
  constructor
  · intro env s op i h
    cases op with
    | alloc l =>
      cases halloc : alloc env s l with
      | none => simpa [step, halloc] using h
      | some pr =>
        obtain ⟨p, s'⟩ := pr
        have : step env s (Op.alloc l) = s' := by simp [step, halloc]
        rw [this]
        exact alloc_pools_mono env s l p s' halloc i h
    | dealloc ptr l =>
      show ((dealloc s ptr l).pools i).used = true
      unfold dealloc
      by_cases hp : poolHit s.pools ptr = true
      · rw [if_pos hp]; exact h
      · rw [if_neg hp]; exact h
    | addMemory a n =>
      have : (step env s (Op.addMemory a n)).pools = s.pools := rfl
      rw [this]
      exact h
  · intro s ptr l hp
    unfold dealloc
    rw [if_pos hp]

/-- Witness for C7 at concrete inputs: in `sW` pool 0 is used with range
[100, 132); an `alloc(1, 1)` step keeps it used, and `dealloc(110)` is
an exact no-op. -/
theorem pool_one_shot_witness :
    ((sW.pools 0).used = true ∧
     ((step envW sW (Op.alloc ⟨1, 1⟩)).pools 0).used = true) ∧
    (poolHit sW.pools 110 = true ∧ dealloc sW 110 ⟨1, 1⟩ = sW) :=
  ⟨⟨by decide, pool_one_shot.1 envW sW (Op.alloc ⟨1, 1⟩) 0 (by decide)⟩,
   ⟨by decide, pool_one_shot.2 sW 110 ⟨1, 1⟩ (by decide)⟩⟩

/-! ### C2: alloc/dealloc round trip -/

/-- C2 counterexample: from the fresh region state `sA` (used = 0), the
free-list allocation of `lB = (2^20 + 2, 4)` returns 24; the immediate
matching `dealloc(24, lB)` leaves `used_bytes = 2`, not 0, because
`alloc` adds `align_up(size, align) = 2^20 + 4` while `dealloc`
subtracts only `size = 2^20 + 2`. -/
theorem round_trip_cex :
    (allocate_from_pool envW lB sA.pools).isNone = true ∧
    (alloc envW sA lB).map Prod.fst = some 24 ∧
    poolHit sB1.pools 24 = false ∧
    used_bytes sA = 0 ∧
    used_bytes (dealloc sB1 24 lB) = 2 ∧
    available_bytes (dealloc sB1 24 lB) ≠ available_bytes sA := by decide

/-- C2 amended: the round trip restores `used_bytes` and
`available_bytes` exactly iff the alignment rounding is trivial, i.e.
when `align_up(size, align) = size`; in general `used_bytes` ends up
larger by `align_up(size, align) - size`.  Proved here in the restoring
direction, for a free-list `alloc` followed by the matching non-pool
`dealloc`. -/
theorem round_trip_amended (env : Fin 8 → Nat) (s : AllocState) (l : Layout)
    (p : Nat) (s₁ : AllocState)
    (hu : s.used_size < W) (hls : l.size < W)
    (hdvd : requiredOf l = l.size)
    (hpool : allocate_from_pool env l s.pools = none)
    (halloc : alloc env s l = some (p, s₁))
    (hnp : poolHit s₁.pools p = false) :
    used_bytes (dealloc s₁ p l) = used_bytes s ∧
    available_bytes (dealloc s₁ p l) = available_bytes s := by
  obtain ⟨a, hbf, hpp, hs1⟩ := alloc_free_path env s l p s₁ hpool halloc
  have hused : (dealloc s₁ p l).used_size = s.used_size := by
    unfold dealloc
    rw [if_neg (by simp [hnp])]
    show wsub s₁.used_size l.size = s.used_size
    rw [hs1]
    show wsub (wadd s.used_size (requiredOf l)) l.size = s.used_size
    rw [hdvd]
    exact wsub_wadd_cancel _ _ hu hls
  have htot : (dealloc s₁ p l).total_size = s.total_size := by
    unfold dealloc
    by_cases hc : poolHit s₁.pools p = true
    · rw [if_pos hc, hs1]
    · rw [if_neg hc]; show s₁.total_size = s.total_size; rw [hs1]
  refine ⟨hused, ?_⟩
  show wsub (dealloc s₁ p l).total_size (dealloc s₁ p l).used_size =
    wsub s.total_size s.used_size
  rw [htot, hused]

/-- Witness for the amended C2 at concrete inputs: region `[8, 8 + 2^20 + 64)`,
layout `(2^20, 1)` (alignment 1 divides the size), free-list pointer 24. -/
theorem round_trip_amended_witness :
    (sA.used_size < W ∧ lH.size < W ∧ requiredOf lH = lH.size ∧
     allocate_from_pool envW lH sA.pools = none ∧
     alloc envW sA lH = some (24, sH1) ∧
     poolHit sH1.pools 24 = false) ∧
    (used_bytes (dealloc sH1 24 lH) = used_bytes sA ∧
     available_bytes (dealloc sH1 24 lH) = available_bytes sA) :=
  ⟨⟨by decide, by decide, by decide, rfl, rfl, by decide⟩,
   round_trip_amended envW sA lH 24 sH1 (by decide) (by decide) (by decide)
     rfl rfl (by decide)⟩

/-! ### C3: used + available = total -/

/-- The counters in the state stay below the machine-word bound across
any single operation. -/
theorem step_bounds (env : Fin 8 → Nat) (s : AllocState) (op : Op)
    (ht : s.total_size < W) (hu : s.used_size < W) :
    (step env s op).total_size < W ∧ (step env s op).used_size < W := by
  cases op with
  | alloc l =>
    cases halloc : alloc env s l with
    | none => simpa [step, halloc] using ⟨ht, hu⟩
    | some pr =>
      obtain ⟨p, s'⟩ := pr
      have hst : step env s (Op.alloc l) = s' := by simp [step, halloc]
      rw [hst]
      cases hap : allocate_from_pool env l s.pools with
      | some pr2 =>
        obtain ⟨p0, ps'⟩ := pr2
        unfold alloc at halloc
        rw [hap] at halloc
        rw [Option.some.injEq, Prod.mk.injEq] at halloc
        rw [← halloc.2]
        exact ⟨ht, hu⟩
      | none =>
        obtain ⟨a, _, _, hs1⟩ := alloc_free_path env s l p s' hap halloc
        rw [hs1]
        exact ⟨ht, wadd_lt _ _⟩
  | dealloc ptr l =>
    show (dealloc s ptr l).total_size < W ∧ (dealloc s ptr l).used_size < W
    unfold dealloc
    by_cases hp : poolHit s.pools ptr = true
    · rw [if_pos hp]; exact ⟨ht, hu⟩
    · rw [if_neg hp]; exact ⟨ht, wsub_lt _ _⟩
  | addMemory a n => exact ⟨wadd_lt _ _, hu⟩

/-- The counters stay below the word bound along any run. -/
theorem run_bounds (env : Fin 8 → Nat) (ops : List Op) :
    ∀ s : AllocState, s.total_size < W → s.used_size < W →
      (run env s ops).total_size < W ∧ (run env s ops).used_size < W := by
  induction ops with
  | nil => intro s ht hu; exact ⟨ht, hu⟩
  | cons op rest ih =>
    intro s ht hu
    have h := step_bounds env s op ht hu
    exact ih (step env s op) h.1 h.2

/-- C3 counterexample: `stateC3` is reachable from `init(8, 32)` by a
contract-respecting sequence (every dealloc frees a pointer previously
returned by alloc, exactly once, with the matching layout), yet its
`used_size` is 35 > 32 = `total_size`, so
`used_bytes + available_bytes ≠ total_bytes`. -/
theorem counters_inv_cex :
    ReachableState envW stateC3 ∧
    used_bytes stateC3 + available_bytes stateC3 ≠ total_bytes stateC3 :=
  ⟨⟨mem0Z, 8, 32, opsC3, rfl⟩, by decide⟩

/-- C3 amended: the accounting identity
`used_bytes + available_bytes = total_bytes` holds in a reachable state
exactly as long as `used_size` has not exceeded `total_size`; the
mismatch between what `alloc` adds (`align_up(size, align)`) and what
`dealloc` subtracts (`size`) can push `used_size` above `total_size`,
where the identity fails. -/
theorem counters_inv_amended (env : Fin 8 → Nat) (s : AllocState)
    (h : ReachableState env s) (hle : used_bytes s ≤ total_bytes s) :
    used_bytes s + available_bytes s = total_bytes s := by
  obtain ⟨mem0, a, n, ops, rfl⟩ := h
  have hinit_t : (init (new mem0) a n).total_size < W := wsub_lt _ _
  have hinit_u : (init (new mem0) a n).used_size < W := W_pos
  have hb := run_bounds env ops _ hinit_t hinit_u
  unfold used_bytes total_bytes at hle ⊢
  unfold available_bytes
  rw [wsub_eq_sub _ _ hle hb.1]
  omega

/-- Witness for the amended C3: the freshly initialised state
`init(8, 32)` is reachable, has `used ≤ total`, and satisfies the
identity `0 + 32 = 32`. -/
theorem counters_inv_amended_witness :
    ReachableState envW (init (new mem0Z) 8 32) ∧
    used_bytes (init (new mem0Z) 8 32) ≤ total_bytes (init (new mem0Z) 8 32) ∧
    used_bytes (init (new mem0Z) 8 32) +
        available_bytes (init (new mem0Z) 8 32) =
      total_bytes (init (new mem0Z) 8 32) :=
  ⟨⟨mem0Z, 8, 32, [], rfl⟩, by decide,
   counters_inv_amended envW _ ⟨mem0Z, 8, 32, [], rfl⟩ (by decide)⟩

/-! ### C4: double free -/

/-- C4 counterexample: in `sD2` the block at 8 (payload pointer 24) is
already back on the free list; a second `dealloc(24, lH)` does not abort
— it completes, pushing the block again and silently wrapping the
counters (`allocation_count` becomes `2^64 - 1`,
`used_size` becomes `2^64 - 2^20`). -/
theorem double_free_cex :
    8 ∈ sD2.free_list ∧
    poolHit sD2.pools 24 = false ∧
    sD3.used_size = 2 ^ 64 - 2 ^ 20 ∧
    sD3.allocation_count = 2 ^ 64 - 1 ∧
    sD3.free_list = [8] := by decide

/-- C4 amended: there is no double-free detection: `dealloc` of a
non-pool pointer whose block is already on the free list (FREE) runs the
ordinary path unconditionally — it decrements both counters with
wrapping `usize` arithmetic and leaves the block on the free list
again. -/
theorem double_free_amended (s : AllocState) (ptr : Nat) (l : Layout)
    (hp : poolHit s.pools ptr = false)
    (_hfree : wsub ptr sizeOfBlock ∈ s.free_list) :
    (dealloc s ptr l).used_size = wsub s.used_size l.size ∧
    (dealloc s ptr l).allocation_count = wsub s.allocation_count 1 ∧
    wsub ptr sizeOfBlock ∈ (dealloc s ptr l).free_list := by
  unfold dealloc
  rw [if_neg (by simp [hp])]
  refine ⟨rfl, rfl, ?_⟩
  show wsub ptr sizeOfBlock ∈
    (merge_blocks s.hdr (wsub ptr sizeOfBlock :: s.free_list)).2
  rw [merge_blocks_snd]
  exact List.mem_singleton.mpr rfl

/-- Witness for the amended C4 at the concrete double-free state `sD2`,
pointer 24, layout `(2^20, 1)`. -/
theorem double_free_amended_witness :
    (poolHit sD2.pools 24 = false ∧ wsub 24 sizeOfBlock ∈ sD2.free_list) ∧
    ((dealloc sD2 24 lH).used_size = wsub sD2.used_size lH.size ∧
     (dealloc sD2 24 lH).allocation_count = wsub sD2.allocation_count 1 ∧
     wsub 24 sizeOfBlock ∈ (dealloc sD2 24 lH).free_list) :=
  ⟨⟨by decide, by decide⟩,
   double_free_amended sD2 24 lH (by decide) (by decide)⟩

/-! ### Bitwise facts about `align_up` -/

theorem two_pow_le_W {k : Nat} (hk : k ≤ 64) : 2 ^ k ≤ W := by
  unfold W; exact Nat.pow_le_pow_right (by norm_num) hk

theorem wsub_two_pow_one (k : Nat) (hk : k ≤ 64) :
    wsub (2 ^ k) 1 = 2 ^ k - 1 := by
  unfold wsub
  have hle := two_pow_le_W hk
  have hp : 0 < 2 ^ k := by positivity
  have hW := W_pos
  rw [show (1 : Nat) % W = 1 from Nat.mod_eq_of_lt (by unfold W; norm_num)]
  have h3 : 2 ^ k + (W - 1) = (2 ^ k - 1) + W := by omega
  rw [h3, Nat.add_mod_right]
  exact Nat.mod_eq_of_lt (by omega)

theorem cpl_two_pow_sub_one (k : Nat) (hk : k ≤ 64) :
    cpl (2 ^ k - 1) = W - 2 ^ k := by
  unfold cpl
  have hle := two_pow_le_W hk
  have hp : 0 < 2 ^ k := by positivity
  have hW := W_pos
  rw [Nat.mod_eq_of_lt (by omega)]
  omega

theorem and_W_sub_two_pow_mod (x k : Nat) (hk : k ≤ 64) :
    (x &&& (W - 2 ^ k)) % 2 ^ k = 0 := by
  have h1 : 2 ^ k ∣ W := by unfold W; exact pow_dvd_pow 2 hk
  have h0 : (W - 2 ^ k) % 2 ^ k = 0 :=
    Nat.mod_eq_zero_of_dvd (Nat.dvd_sub' h1 dvd_rfl)
  calc (x &&& (W - 2 ^ k)) % 2 ^ k
      = (x &&& (W - 2 ^ k)) &&& (2 ^ k - 1) :=
        (Nat.and_pow_two_sub_one_eq_mod _ k).symm
    _ = x &&& ((W - 2 ^ k) &&& (2 ^ k - 1)) := Nat.and_assoc _ _ _
    _ = x &&& ((W - 2 ^ k) % 2 ^ k) := by
        rw [Nat.and_pow_two_sub_one_eq_mod]
    _ = 0 := by rw [h0, Nat.and_zero]

/-- For a power-of-two alignment (the `Layout` contract; the source's
`align_up` masks with `!(align - 1)`, valid only then), the result of
`align_up` is a multiple of the alignment. -/
theorem align_up_two_pow (v k : Nat) (hk : k ≤ 64) :
    align_up v (2 ^ k) % 2 ^ k = 0 := by
  unfold align_up
  rw [wsub_two_pow_one k hk, cpl_two_pow_sub_one k hk]
  exact and_W_sub_two_pow_mod _ k hk

/-! ### C9: alignment of returned addresses -/

/-- C9 counterexample: with the pool statics placed at odd addresses
(allowed, since a `[u8; N]` static only guarantees alignment 1),
`alloc(32, 2)` on a fresh allocator is served by pool 0 and returns
address 1, which is not ≡ 0 mod 2. -/
theorem alignment_cex :
    (alloc envOdd (new mem0Z) ⟨32, 2⟩).map Prod.fst = some 1 ∧
    ¬(1 % 2 = 0) := by decide

/-- C9 amended: an `alloc` served by the free-list engine returns an
address ≡ 0 mod `align` (for the power-of-two aligns of the `Layout`
contract); an `alloc` served by a pool returns the pool's static base
address verbatim, whose alignment is whatever the linker provided. -/
theorem alignment_amended :
    (∀ (env : Fin 8 → Nat) (s : AllocState) (l : Layout) (p : Nat)
       (s₁ : AllocState) (k : Nat), k ≤ 64 → l.align = 2 ^ k →
       allocate_from_pool env l s.pools = none →
       alloc env s l = some (p, s₁) → p % l.align = 0) ∧
    (∀ (env : Fin 8 → Nat) (l : Layout) (pools : Fin 8 → PoolInfo) (p : Nat),
       (allocate_from_pool env l pools).map Prod.fst = some p →
       ∃ i : Fin 8, p = env i) := by
  constructor
  · intro env s l p s₁ k hk hal hpool halloc
    obtain ⟨a, _, hpp, _⟩ := alloc_free_path env s l p s₁ hpool halloc
    rw [hpp, hal]
    exact align_up_two_pow _ k hk
  · intro env l pools p h
    cases hap : allocate_from_pool env l pools with
    | none => rw [hap] at h; exact absurd h (by simp)
    | some pr =>
      obtain ⟨p0, ps'⟩ := pr
      rw [hap] at h
      have hp0 : p0 = p := by simpa using h
      obtain ⟨i, hpi, _, _⟩ := allocate_from_pool_spec env l pools p0 ps' hap
      exact ⟨i, by rw [← hp0, hpi]⟩

/-- Witness for the amended C9: free-list `alloc(2^20, 8)` from `sF`
returns 24 ≡ 0 mod 8; pool `alloc(32, 1)` returns the static base. -/
theorem alignment_amended_witness :
    ((3 : Nat) ≤ 64 ∧ (⟨2 ^ 20, 8⟩ : Layout).align = 2 ^ 3 ∧
     allocate_from_pool envW ⟨2 ^ 20, 8⟩ sF.pools = none ∧
     alloc envW sF ⟨2 ^ 20, 8⟩ =
       some (24, step envW sF (Op.alloc ⟨2 ^ 20, 8⟩)) ∧
     24 % (⟨2 ^ 20, 8⟩ : Layout).align = 0) ∧
    ((allocate_from_pool envW ⟨32, 1⟩ (new mem0Z).pools).map Prod.fst =
       some (2 ^ 32) ∧
     ∃ i : Fin 8, (2 : Nat) ^ 32 = envW i) :=
  ⟨⟨by decide, by decide, rfl, rfl,
    alignment_amended.1 envW sF ⟨2 ^ 20, 8⟩ 24 _ 3 (by decide) (by decide)
      rfl rfl⟩,
   ⟨by decide,
    alignment_amended.2 envW ⟨32, 1⟩ (new mem0Z).pools (2 ^ 32) (by decide)⟩⟩

/-! ### Invariants of the best-fit search loop -/

/-- A search result is the incoming candidate or a member of the list. -/
theorem bfLoop_mem (hdr : Nat → Nat) (req : Nat) :
    ∀ (l : List Nat) (best : Option Nat) (bsz : Nat) (a : Nat),
      bfLoop hdr req l best bsz = some a → best = some a ∨ a ∈ l := by
  intro l
  induction l with
  | nil => intro best bsz a h; exact Or.inl h
  | cons c rest ih =>
    intro best bsz a h
    rw [bfLoop] at h
    by_cases h1 : req ≤ hdr c ∧ hdr c < bsz
    · rw [if_pos h1] at h
      by_cases h2 : hdr c = req
      · rw [if_pos h2] at h
        injection h with h3
        subst h3
        exact Or.inr (List.mem_cons_self _ _)
      · rw [if_neg h2] at h
        rcases ih (some c) (hdr c) a h with h3 | h3
        · injection h3 with h4
          subst h4
          exact Or.inr (List.mem_cons_self _ _)
        · exact Or.inr (List.mem_cons_of_mem c h3)
    · rw [if_neg h1] at h
      rcases ih best bsz a h with h3 | h3
      · exact Or.inl h3
      · exact Or.inr (List.mem_cons_of_mem c h3)

/-- The search never returns a block smaller than the request. -/
theorem bfLoop_geq (hdr : Nat → Nat) (req : Nat) :
    ∀ (l : List Nat) (best : Option Nat) (bsz : Nat) (a : Nat),
      (∀ x, best = some x → req ≤ hdr x) →
      bfLoop hdr req l best bsz = some a → req ≤ hdr a := by
  intro l
  induction l with
  | nil => intro best bsz a hb h; exact hb a h
  | cons c rest ih =>
    intro best bsz a hb h
    rw [bfLoop] at h
    by_cases h1 : req ≤ hdr c ∧ hdr c < bsz
    · rw [if_pos h1] at h
      by_cases h2 : hdr c = req
      · rw [if_pos h2] at h
        injection h with h3
        subst h3
        exact h1.1
      · rw [if_neg h2] at h
        refine ih (some c) (hdr c) a ?_ h
        intro x hx
        injection hx with h4
        subst h4
        exact h1.1
    · rw [if_neg h1] at h
      exact ih best bsz a hb h

/-- When the search improves on the incoming candidate, the result is
below the incoming strict bound. -/
theorem bfLoop_lt_bsz (hdr : Nat → Nat) (req : Nat) :
    ∀ (l : List Nat) (best : Option Nat) (bsz : Nat) (a : Nat),
      bfLoop hdr req l best bsz = some a → best = some a ∨ hdr a < bsz := by
  intro l
  induction l with
  | nil => intro best bsz a h; exact Or.inl h
  | cons c rest ih =>
    intro best bsz a h
    rw [bfLoop] at h
    by_cases h1 : req ≤ hdr c ∧ hdr c < bsz
    · rw [if_pos h1] at h
      by_cases h2 : hdr c = req
      · rw [if_pos h2] at h
        injection h with h3
        subst h3
        exact Or.inr h1.2
      · rw [if_neg h2] at h
        rcases ih (some c) (hdr c) a h with h3 | h3
        · injection h3 with h4
          subst h4
          exact Or.inr h1.2
        · exact Or.inr (lt_trans h3 h1.2)
    · rw [if_neg h1] at h
      exact ih best bsz a h

/-- Minimality: the result is at most the size of every qualifying block
in the remaining list (below the incoming strict bound). -/
theorem bfLoop_min (hdr : Nat → Nat) (req : Nat) :
    ∀ (l : List Nat) (best : Option Nat) (bsz : Nat) (a : Nat),
      bfLoop hdr req l best bsz = some a →
      ∀ b ∈ l, req ≤ hdr b → hdr b < bsz → hdr a ≤ hdr b := by
  intro l
  induction l with
  | nil => intro best bsz a _ b hb; exact absurd hb (List.not_mem_nil b)
  | cons c rest ih =>
    intro best bsz a h b hb hreq hlt
    rw [bfLoop] at h
    rcases List.mem_cons.mp hb with hbc | hbr
    · subst hbc
      by_cases h1 : req ≤ hdr b ∧ hdr b < bsz
      · rw [if_pos h1] at h
        by_cases h2 : hdr b = req
        · rw [if_pos h2] at h
          injection h with h3
          subst h3
          exact le_refl _
        · rw [if_neg h2] at h
          rcases bfLoop_lt_bsz hdr req rest (some b) (hdr b) a h with h3 | h3
          · injection h3 with h4
            subst h4
            exact le_refl _
          · exact le_of_lt h3
      · exact absurd ⟨hreq, hlt⟩ h1
    · by_cases h1 : req ≤ hdr c ∧ hdr c < bsz
      · rw [if_pos h1] at h
        by_cases h2 : hdr c = req
        · rw [if_pos h2] at h
          injection h with h3
          subst h3
          rw [h2]
          exact hreq
        · rw [if_neg h2] at h
          by_cases h5 : hdr b < hdr c
          · exact ih (some c) (hdr c) a h b hbr hreq h5
          · push_neg at h5
            rcases bfLoop_lt_bsz hdr req rest (some c) (hdr c) a h with h3 | h3
            · injection h3 with h4
              subst h4
              exact h5
            · exact le_trans (le_of_lt h3) h5
      · rw [if_neg h1] at h
        exact ih best bsz a h b hbr hreq hlt

/-- Earliest-wins: every block before the result's position in the list
either does not qualify or is strictly larger than the result. -/
theorem bfLoop_earliest (hdr : Nat → Nat) (req : Nat) :
    ∀ (l : List Nat) (best : Option Nat) (bsz : Nat) (a : Nat),
      bfLoop hdr req l best bsz = some a →
      best = some a ∨
      ∃ l₁ l₂, l = l₁ ++ a :: l₂ ∧ hdr a < bsz ∧
        ∀ b ∈ l₁, ¬(req ≤ hdr b ∧ hdr b ≤ hdr a) := by
  intro l
  induction l with
  | nil => intro best bsz a h; exact Or.inl h
  | cons c rest ih =>
    intro best bsz a h
    rw [bfLoop] at h
    by_cases h1 : req ≤ hdr c ∧ hdr c < bsz
    · rw [if_pos h1] at h
      by_cases h2 : hdr c = req
      · rw [if_pos h2] at h
        injection h with h3
        subst h3
        exact Or.inr ⟨[], rest, rfl, h1.2, by simp⟩
      · rw [if_neg h2] at h
        rcases ih (some c) (hdr c) a h with h3 | h3
        · injection h3 with h4
          subst h4
          exact Or.inr ⟨[], rest, rfl, h1.2, by simp⟩
        · obtain ⟨l₁, l₂, hsplit, hlt, hno⟩ := h3
          refine Or.inr ⟨c :: l₁, l₂, by rw [hsplit]; rfl, lt_trans hlt h1.2, ?_⟩
          intro b hb
          rcases List.mem_cons.mp hb with hbc | hbl
          · subst hbc
            intro hcontra
            exact absurd (lt_of_le_of_lt hcontra.2 hlt) (lt_irrefl _)
          · exact hno b hbl
    · rw [if_neg h1] at h
      rcases ih best bsz a h with h3 | h3
      · exact Or.inl h3
      · obtain ⟨l₁, l₂, hsplit, hlt, hno⟩ := h3
        refine Or.inr ⟨c :: l₁, l₂, by rw [hsplit]; rfl, hlt, ?_⟩
        intro b hb
        rcases List.mem_cons.mp hb with hbc | hbl
        · subst hbc
          intro hcontra
          exact h1 ⟨hcontra.1, lt_of_le_of_lt hcontra.2 hlt⟩
        · exact hno b hbl

/-- The search never drops a candidate it is already holding. -/
theorem bfLoop_isSome_of_best (hdr : Nat → Nat) (req : Nat) :
    ∀ (l : List Nat) (best : Option Nat) (bsz : Nat),
      best.isSome = true → (bfLoop hdr req l best bsz).isSome = true := by
  intro l
  induction l with
  | nil => intro best bsz h; exact h
  | cons c rest ih =>
    intro best bsz h
    rw [bfLoop]
    by_cases h1 : req ≤ hdr c ∧ hdr c < bsz
    · rw [if_pos h1]
      by_cases h2 : hdr c = req
      · rw [if_pos h2]; rfl
      · rw [if_neg h2]; exact ih (some c) (hdr c) rfl
    · rw [if_neg h1]; exact ih best bsz h

/-- Completeness: if some block qualifies (below the strict bound), the
search returns a block. -/
theorem bfLoop_complete (hdr : Nat → Nat) (req : Nat) :
    ∀ (l : List Nat) (best : Option Nat) (bsz : Nat),
      (∃ b ∈ l, req ≤ hdr b ∧ hdr b < bsz) →
      (bfLoop hdr req l best bsz).isSome = true := by
  intro l
  induction l with
  | nil =>
    intro best bsz h
    obtain ⟨b, hb, _⟩ := h
    exact absurd hb (List.not_mem_nil b)
  | cons c rest ih =>
    intro best bsz h
    obtain ⟨b, hb, hcand⟩ := h
    rw [bfLoop]
    by_cases h1 : req ≤ hdr c ∧ hdr c < bsz
    · rw [if_pos h1]
      by_cases h2 : hdr c = req
      · rw [if_pos h2]; rfl
      · rw [if_neg h2]
        exact bfLoop_isSome_of_best hdr req rest (some c) (hdr c) rfl
    · rw [if_neg h1]
      rcases List.mem_cons.mp hb with hbc | hbr
      · subst hbc; exact absurd hcand h1
      · exact ih best bsz ⟨b, hbr, hcand⟩

/-! ### C1: best-fit selection -/

/-- C1: on any free list whose recorded block sizes are below
`usize::MAX` (always true of real blocks), the `find_best_fit` search
(1) finds a block whenever one of size ≥ `required` exists, (2) picks a
block of size exactly `required` whenever one exists, and (3) any block
it picks is on the list, has size ≥ `required`, minimal among all
satisfying blocks, and is the earliest entry with that minimal size in
list order — every earlier entry either fails the request or is strictly
larger. -/
theorem best_fit_selection (hdr : Nat → Nat) (req : Nat) (l : List Nat)
    (hb : ∀ b ∈ l, hdr b < W - 1) :
    ((∃ b ∈ l, req ≤ hdr b) → (bestFitAddr hdr req l).isSome = true) ∧
    (∀ b ∈ l, hdr b = req →
      ∃ a, bestFitAddr hdr req l = some a ∧ hdr a = req) ∧
    (∀ a, bestFitAddr hdr req l = some a →
      a ∈ l ∧ req ≤ hdr a ∧
      (∀ b ∈ l, req ≤ hdr b → hdr a ≤ hdr b) ∧
      (∃ l₁ l₂, l = l₁ ++ a :: l₂ ∧
        ∀ b ∈ l₁, ¬(req ≤ hdr b ∧ hdr b ≤ hdr a))) := by
  have hsound : ∀ a, bestFitAddr hdr req l = some a →
      a ∈ l ∧ req ≤ hdr a ∧
      (∀ b ∈ l, req ≤ hdr b → hdr a ≤ hdr b) ∧
      (∃ l₁ l₂, l = l₁ ++ a :: l₂ ∧
        ∀ b ∈ l₁, ¬(req ≤ hdr b ∧ hdr b ≤ hdr a)) := by
    intro a ha
    have hmem : a ∈ l := by
      rcases bfLoop_mem hdr req l none (W - 1) a ha with h | h
      · exact absurd h (by simp)
      · exact h
    have hgeq : req ≤ hdr a :=
      bfLoop_geq hdr req l none (W - 1) a
        (fun x hx => absurd hx (by simp)) ha
    have hmin : ∀ b ∈ l, req ≤ hdr b → hdr a ≤ hdr b := by
      intro b hbmem hbreq
      exact bfLoop_min hdr req l none (W - 1) a ha b hbmem hbreq (hb b hbmem)
    rcases bfLoop_earliest hdr req l none (W - 1) a ha with h | h
    · exact absurd h (by simp)
    · obtain ⟨l₁, l₂, hsp, _, hno⟩ := h
      exact ⟨hmem, hgeq, hmin, l₁, l₂, hsp, hno⟩
  refine ⟨?_, ?_, hsound⟩
  · intro h
    obtain ⟨b, hbmem, hbreq⟩ := h
    exact bfLoop_complete hdr req l none (W - 1) ⟨b, hbmem, hbreq, hb b hbmem⟩
  · intro b hbmem hbeq
    have hc : (bestFitAddr hdr req l).isSome = true :=
      bfLoop_complete hdr req l none (W - 1)
        ⟨b, hbmem, le_of_eq hbeq.symm, hb b hbmem⟩
    obtain ⟨a, ha⟩ := Option.isSome_iff_exists.mp hc
    obtain ⟨_, hgeq, hmin, _⟩ := hsound a ha
    exact ⟨a, ha, le_antisymm (hbeq ▸ hmin b hbmem (le_of_eq hbeq.symm)) hgeq⟩

/-- Witness for C1 at the spec's own example: free sizes {100, 10, 50}
(blocks 1, 2, 3), request 10: block 2 of size exactly 10 is selected. -/
theorem best_fit_selection_witness :
    (∀ b ∈ [1, 2, 3], hdrX b < W - 1) ∧
    bestFitAddr hdrX 10 [1, 2, 3] = some 2 ∧
    (2 ∈ [1, 2, 3] ∧ 10 ≤ hdrX 2 ∧
      (∀ b ∈ [1, 2, 3], 10 ≤ hdrX b → hdrX 2 ≤ hdrX b) ∧
      (∃ l₁ l₂, [1, 2, 3] = l₁ ++ 2 :: l₂ ∧
        ∀ b ∈ l₁, ¬(10 ≤ hdrX b ∧ hdrX b ≤ hdrX 2))) :=
  ⟨by decide, by decide,
   (best_fit_selection hdrX 10 [1, 2, 3] (by decide)).2.2 2 (by decide)⟩

/-! ### C5: the required size fed to the search -/

/-- C5 counterexample: for layout `(2^20, 1)` (handled by the free-list
engine, since no pool class fits), the size handed to the search is
`align_up(2^20, 1) = 2^20`, while the claim's formula — requested size
plus one header plus alignment padding — gives `2^20 + 16`. -/
theorem required_size_cex :
    (allocate_from_pool envW lH (new mem0Z).pools).isNone = true ∧
    (alloc envW sA lH).map Prod.fst = some 24 ∧
    requiredOf lH = 2 ^ 20 ∧
    specRequired lH = 2 ^ 20 + 16 ∧
    requiredOf lH ≠ specRequired lH := by decide

/-- C5 amended: the required byte count used by the free-list search is
`align_up(size, align)` — no header bytes are added; a successful
free-list `alloc` consumes exactly that amount of `used_size` and its
chosen block has at least that recorded size. -/
theorem required_size_amended (env : Fin 8 → Nat) (s : AllocState)
    (l : Layout) (p : Nat) (s₁ : AllocState)
    (hpool : allocate_from_pool env l s.pools = none)
    (halloc : alloc env s l = some (p, s₁)) :
    requiredOf l = align_up l.size l.align ∧
    s₁.used_size = wadd s.used_size (requiredOf l) ∧
    ∃ a ∈ s.free_list, requiredOf l ≤ s.hdr a := by
  obtain ⟨a, hbf, _, hs1⟩ := alloc_free_path env s l p s₁ hpool halloc
  refine ⟨rfl, by rw [hs1], a, ?_, ?_⟩
  · rcases bfLoop_mem s.hdr (requiredOf l) s.free_list none (W - 1) a hbf
      with h | h
    · exact absurd h (by simp)
    · exact h
  · exact bfLoop_geq s.hdr (requiredOf l) s.free_list none (W - 1) a
      (fun x hx => absurd hx (by simp)) hbf

/-- Witness for the amended C5: the free-list `alloc(2^20, 1)` from `sA`
consumes `align_up(2^20, 1) = 2^20` bytes out of the block at 8. -/
theorem required_size_amended_witness :
    (allocate_from_pool envW lH sA.pools = none ∧
     alloc envW sA lH = some (24, sH1)) ∧
    (requiredOf lH = align_up lH.size lH.align ∧
     sH1.used_size = wadd sA.used_size (requiredOf lH) ∧
     ∃ a ∈ sA.free_list, requiredOf lH ≤ sA.hdr a) :=
  ⟨⟨rfl, rfl⟩, required_size_amended envW sA lH 24 sH1 rfl rfl⟩

/-! ### C6: splitting of oversized blocks -/

/-- C6 counterexample: from `sF` (one free block at 8 of size
`2^21 - 16`), the request `lF = (2^20, 1)` leaves a surplus well above
one header's worth, yet after the allocation the free list is empty —
no remainder block was carved and inserted — and the chosen block's
header still records the full original size rather than `required`. -/
theorem no_split_cex :
    (allocate_from_pool envW lF sF.pools).isNone = true ∧
    (alloc envW sF lF).map Prod.fst = some 24 ∧
    sF.free_list = [8] ∧
    sF.hdr 8 = 2 ^ 21 - 16 ∧
    requiredOf lF + sizeOfBlock < sF.hdr 8 ∧
    sF1.free_list = [] ∧
    sF1.hdr 8 = 2 ^ 21 - 16 := by decide

/-- C6 amended: a free-list `alloc` never splits: whatever the surplus,
the chosen block is unlinked whole from the free list, no block header
is written, and no remainder is inserted (`total_size` is unchanged
too). -/
theorem no_split_amended (env : Fin 8 → Nat) (s : AllocState) (l : Layout)
    (p : Nat) (s₁ : AllocState)
    (hpool : allocate_from_pool env l s.pools = none)
    (halloc : alloc env s l = some (p, s₁)) :
    ∃ a, bestFitAddr s.hdr (requiredOf l) s.free_list = some a ∧
      s₁.free_list = removeFirst a s.free_list ∧
      s₁.hdr = s.hdr ∧ s₁.total_size = s.total_size := by
  obtain ⟨a, hbf, _, hs1⟩ := alloc_free_path env s l p s₁ hpool halloc
  exact ⟨a, hbf, by rw [hs1], by rw [hs1], by rw [hs1]⟩

/-- Witness for the amended C6 at `sF`, request `(2^20, 1)`. -/
theorem no_split_amended_witness :
    (allocate_from_pool envW lF sF.pools = none ∧
     alloc envW sF lF = some (24, sF1)) ∧
    (∃ a, bestFitAddr sF.hdr (requiredOf lF) sF.free_list = some a ∧
      sF1.free_list = removeFirst a sF.free_list ∧
      sF1.hdr = sF.hdr ∧ sF1.total_size = sF.total_size) :=
  ⟨⟨rfl, rfl⟩, no_split_amended envW sF lF 24 sF1 rfl rfl⟩

/-! ### C10: frame property of pool-served allocations -/

/-- C10: an `alloc` served by the size-class accelerator returns the
pool base and changes nothing but the matched pool's entry: the byte
counters, the allocation counter, the free list and the block headers
are untouched, and every other pool entry is preserved. -/
theorem pool_alloc_frame (env : Fin 8 → Nat) (s : AllocState) (l : Layout)
    (p : Nat) (h : (allocate_from_pool env l s.pools).map Prod.fst = some p) :
    (alloc env s l).map Prod.fst = some p ∧
    (step env s (Op.alloc l)).total_size = s.total_size ∧
    (step env s (Op.alloc l)).used_size = s.used_size ∧
    (step env s (Op.alloc l)).allocation_count = s.allocation_count ∧
    (step env s (Op.alloc l)).free_list = s.free_list ∧
    (step env s (Op.alloc l)).hdr = s.hdr ∧
    ∃ i : Fin 8, p = env i ∧ (s.pools i).used = false ∧
      (step env s (Op.alloc l)).pools i =
        ⟨env i, POOL_SIZES.getD i.val 0, true⟩ ∧
      ∀ j, j ≠ i → (step env s (Op.alloc l)).pools j = s.pools j := by
  cases hap : allocate_from_pool env l s.pools with
  | none => rw [hap] at h; exact absurd h (by simp)
  | some pr =>
    obtain ⟨p0, ps'⟩ := pr
    rw [hap] at h
    have hp0 : p0 = p := by simpa using h
    subst hp0
    obtain ⟨i, hp, hused, hps⟩ := allocate_from_pool_spec env l s.pools p0 ps' hap
    have hstep : step env s (Op.alloc l) = { s with pools := ps' } := by
      simp [step, alloc, hap]
    refine ⟨by simp [alloc, hap], by rw [hstep], by rw [hstep], by rw [hstep],
      by rw [hstep], by rw [hstep], i, hp, hused, ?_, ?_⟩
    · rw [hstep]; show ps' i = _; rw [hps]; simp [hp]
    · intro j hj; rw [hstep]; show ps' j = _; rw [hps]; simp [hj]

/-- Witness for C10 at a concrete input: a fresh allocator, request
`(32, 1)`; the pool at index 0 serves it at its static base `2^32`. -/
theorem pool_alloc_frame_witness :
    ((allocate_from_pool envW ⟨32, 1⟩ (new mem0Z).pools).map Prod.fst =
      some (2 ^ 32)) ∧
    ((alloc envW (new mem0Z) ⟨32, 1⟩).map Prod.fst = some (2 ^ 32) ∧
     (step envW (new mem0Z) (Op.alloc ⟨32, 1⟩)).total_size =
       (new mem0Z).total_size ∧
     (step envW (new mem0Z) (Op.alloc ⟨32, 1⟩)).used_size =
       (new mem0Z).used_size ∧
     (step envW (new mem0Z) (Op.alloc ⟨32, 1⟩)).allocation_count =
       (new mem0Z).allocation_count ∧
     (step envW (new mem0Z) (Op.alloc ⟨32, 1⟩)).free_list =
       (new mem0Z).free_list ∧
     (step envW (new mem0Z) (Op.alloc ⟨32, 1⟩)).hdr = (new mem0Z).hdr ∧
     ∃ i : Fin 8, (2 : Nat) ^ 32 = envW i ∧
       ((new mem0Z).pools i).used = false ∧
       (step envW (new mem0Z) (Op.alloc ⟨32, 1⟩)).pools i =
         ⟨envW i, POOL_SIZES.getD i.val 0, true⟩ ∧
       ∀ j, j ≠ i →
         (step envW (new mem0Z) (Op.alloc ⟨32, 1⟩)).pools j =
           (new mem0Z).pools j) :=
  ⟨by decide, pool_alloc_frame envW (new mem0Z) ⟨32, 1⟩ (2 ^ 32) (by decide)⟩

end LabAlloc
